import Mathlib

/-!
Verification of the bit-packing encoder of `embedded-mono-img` (`src/main.rs`).

The encoder consumes a row-major grid of 8-bit luminance samples, thresholds
each sample to one bit, and packs bits MSB-first into bytes written to an
output sink.  We shallowly embed the Rust code:

* machine integers (`u8`, `usize`) become `Nat`, with `% 256` inserted exactly
  where the `u8` arithmetic of the source can wrap (the left shift in
  `to_byte`);
* the abstract `io::Write` sink becomes `Sink`: the list of bytes written so
  far plus an optional budget of writes that will still succeed, so that a
  sink that never fails (`budget = none`) and a sink whose k-th write fails
  (`budget = some k`) are both expressible;
* fallible Rust functions returning `Result<()>` become `Except` values; an
  error carries the bytes the sink holds at the moment of failure, modelling
  that a failed write leaves the previously written bytes on the sink.
-/

/-- A writable byte sink: the bytes written so far, and how many further
single-byte writes will succeed (`none` = writes always succeed). -/
structure Sink where
  written : List Nat
  budget : Option Nat
deriving DecidableEq

/-- Model of `writer.write_all(&[byte])`: append one byte, or fail leaving the
previously written bytes on the sink. -/
def Sink.write_all (s : Sink) (b : Nat) : Except (List Nat) Sink :=
  match s.budget with
  | none => .ok ⟨s.written ++ [b], none⟩
  | some 0 => .error s.written
  | some (k + 1) => .ok ⟨s.written ++ [b], some k⟩

/-- Model of `struct Pack<W>` with fields `writer: W`, `bits: [u8; 8]`, `ctr: usize`. -/
structure Pack where
  writer : Sink
  bits : List Nat
  ctr : Nat
deriving DecidableEq

/-- Model of `Pack::new`: empty bit array (`Default` for `[u8; 8]` is all zeroes),
counter 0. -/
def Pack.new (writer : Sink) : Pack :=
  ⟨writer, List.replicate 8 0, 0⟩

/-- Model of `Pack::clear`: reset the bit array to all zeroes and the counter to 0. -/
def Pack.clear (p : Pack) : Pack :=
  ⟨p.writer, List.replicate 8 0, 0⟩

/-- The fold body of `Pack::to_byte`: the state is `(ctr, byte)` as produced
by `.iter().enumerate()`; `byte <<= 1` is u8 arithmetic, hence `% 256`. -/
def toByteStep (st : Nat × Nat) (bit : Nat) : Nat × Nat :=
  (st.1 + 1, Nat.lor (if st.1 > 0 then 2 * st.2 % 256 else st.2) bit)

/-- Model of `Pack::to_byte` as a function of the bit array. -/
def toByteL (bits : List Nat) : Nat :=
  (bits.foldl toByteStep (0, 0)).2

/-- Model of `Pack::to_byte`: fold all 8 slots of `bits` into one byte, MSB first. -/
def Pack.to_byte (p : Pack) : Nat :=
  toByteL p.bits

/-- Model of `Pack::write`: assemble the byte, write it to the sink, clear. -/
def Pack.write (p : Pack) : Except (List Nat) Pack :=
  match p.writer.write_all p.to_byte with
  | .error e => .error e
  | .ok w => .ok (Pack.clear ⟨w, p.bits, p.ctr⟩)

/-- Model of `Pack::add`: store the bit at index `ctr`, increment `ctr`, and emit the
byte as soon as `ctr` reaches the length of the bit array. -/
def Pack.add (p : Pack) (bit : Nat) : Except (List Nat) Pack :=
  let q : Pack := ⟨p.writer, p.bits.set p.ctr bit, p.ctr + 1⟩
  if q.ctr ≥ q.bits.length then q.write else .ok q

/-- Model of `Pack::flush`: nothing to do on an empty accumulator, otherwise pad with
the zero bits already present in the array and emit. -/
def Pack.flush (p : Pack) : Except (List Nat) Pack :=
  if p.ctr = 0 then .ok p else p.write

/-- Feed a list of bits through successive `Pack::add` calls. -/
def Pack.addAll : Pack → List Nat → Except (List Nat) Pack
  | p, [] => .ok p
  | p, b :: rest =>
    match p.add b with
    | .error e => .error e
    | .ok p => p.addAll rest

/-- Configuration of one conversion run (`Settings` in the source). -/
structure Settings where
  threshold : Nat
  no_flush_after_pixel_row : Bool
deriving DecidableEq

/-- The per-pixel threshold decision of `process_image`:
`if px.0[0] > settings.threshold { 1 } else { 0 }`. -/
def thresholdBit (sample threshold : Nat) : Nat :=
  if sample > threshold then 1 else 0

/-- The inner pixel loop of `process_image`: threshold each sample of one row
and feed the bit to `Pack::add`. -/
def processRow (s : Settings) : Pack → List Nat → Except (List Nat) Pack
  | p, [] => .ok p
  | p, px :: rest =>
    match p.add (thresholdBit px s.threshold) with
    | .error e => .error e
    | .ok p => processRow s p rest

/-- The outer row loop of `process_image`: after each row, flush unless
`no_flush_after_pixel_row` is set. -/
def processRows (s : Settings) : Pack → List (List Nat) → Except (List Nat) Pack
  | p, [] => .ok p
  | p, row :: rest =>
    match processRow s p row with
    | .error e => .error e
    | .ok p =>
      match (if s.no_flush_after_pixel_row then .ok p else p.flush) with
      | .error e => .error e
      | .ok p => processRows s p rest

/-- Model of `process_image`: build a fresh `Pack` over the output sink, run the row
loop, flush the remainder, and hand the sink back (`into_inner`).  The final
`into_inner().flush()` of the source drains sink-level buffering; our sink
model is unbuffered, so it is a successful no-op. -/
def process_image (gray_image : List (List Nat)) (output : Sink)
    (s : Settings) : Except (List Nat) (List Nat) :=
  match processRows s (Pack.new output) gray_image with
  | .error e => .error e
  | .ok pack =>
    match pack.flush with
    | .error e => .error e
    | .ok pack => .ok pack.writer.written

/-- Feed a raw bit list to a fresh `Pack` over a never-failing empty sink,
then flush; return the bytes on the sink. -/
def runPack (bs : List Nat) : Except (List Nat) (List Nat) :=
  match (Pack.new ⟨[], none⟩).addAll bs with
  | .error e => .error e
  | .ok p =>
    match p.flush with
    | .error e => .error e
    | .ok p => .ok p.writer.written

/-! ### Mathematical reference values -/

/-- The value of a bit string read MSB-first. -/
def byteVal (l : List Nat) : Nat :=
  l.foldl (fun acc b => 2 * acc + b) 0

/-- Pad a bit string on the right with zeroes to length 8. -/
def padTo8 (l : List Nat) : List Nat :=
  l ++ List.replicate (8 - l.length) 0

/-- Split a list into chunks of 8 (last chunk possibly shorter); the fuel is
an upper bound on the list length, making the recursion structural. -/
def chunks8Go : Nat → List Nat → List (List Nat)
  | 0, _ => []
  | _, [] => []
  | fuel + 1, b :: rest => (b :: rest).take 8 :: chunks8Go fuel ((b :: rest).drop 8)

/-- Split a list into chunks of 8; the last chunk may be shorter. -/
def chunks8 (l : List Nat) : List (List Nat) :=
  chunks8Go l.length l

/-- The byte stream obtained by packing a bit string MSB-first, padding the
final partial byte with zero bits. -/
def packBytes (bs : List Nat) : List Nat :=
  (chunks8 bs).map (fun c => byteVal (padTo8 c))

/-- The bit string produced by thresholding one pixel row. -/
def rowBits (s : Settings) (row : List Nat) : List Nat :=
  row.map (fun px => thresholdBit px s.threshold)

/-- The whole-image bit string in row-major order. -/
def contBits (s : Settings) (rows : List (List Nat)) : List Nat :=
  (rows.map (rowBits s)).flatten

/-- The byte stream of row-aligned mode: every row packed separately. -/
def alignedBytes (s : Settings) (rows : List (List Nat)) : List Nat :=
  (rows.map (fun r => packBytes (rowBits s r))).flatten

/-- Predicate stating that a `Pack` over a never-failing sink holding exactly the bit string `held`
(each bit 0 or 1), with `out` already written. -/
def wfPack (p : Pack) (out held : List Nat) : Prop :=
  p.writer = ⟨out, none⟩ ∧ p.ctr = held.length ∧ held.length < 8 ∧
    p.bits = held ++ List.replicate (8 - held.length) 0 ∧ ∀ b ∈ held, b ≤ 1

/-- The states a `Pack` can be in after construction and any sequence of
successful `add`/`flush` calls, where every bit passed to `add` satisfies
`P`. -/
inductive Reached (P : Nat → Prop) : Pack → Prop
  | new (w : Sink) : Reached P (Pack.new w)
  | add (p p' : Pack) (b : Nat) :
      Reached P p → P b → p.add b = .ok p' → Reached P p'
  | flush (p p' : Pack) :
      Reached P p → p.flush = .ok p' → Reached P p'

/-- Predicate stating that `f` maps a pack in accumulator state `(bits, ctr)` to a result emitting
exactly the bytes `E`, ending in state `(bits', ctr')`: over a never-failing
sink it succeeds appending `E`; over a sink accepting only `k` more writes it
succeeds when `|E| ≤ k` and otherwise fails after writing exactly the first
`k` bytes of `E`. -/
def EmitSpec (f : Pack → Except (List Nat) Pack)
    (bits : List Nat) (ctr : Nat) (E : List Nat) (bits' : List Nat) (ctr' : Nat) : Prop :=
  (∀ out, f ⟨⟨out, none⟩, bits, ctr⟩ = .ok ⟨⟨out ++ E, none⟩, bits', ctr'⟩) ∧
  (∀ out k, f ⟨⟨out, some k⟩, bits, ctr⟩ =
    if E.length ≤ k then .ok ⟨⟨out ++ E, some (k - E.length)⟩, bits', ctr'⟩
    else .error (out ++ E.take k))

/-! ### Helper lemmas: byte values -/

theorem lor_two_mul_add (a b : Nat) (h : b ≤ 1) : Nat.lor (2 * a) b = 2 * a + b := by
  interval_cases b
  · show (2 * a) ||| 0 = 2 * a + 0
    simp
  · show (2 * a) ||| 1 = 2 * a + 1
    have h1 := Nat.lor_bit false a true 0
    simp only [Nat.bit_false, Nat.bit_true] at h1
    simpa using h1

theorem byteVal_foldl (l : List Nat) :
    ∀ a : Nat, l.foldl (fun acc b => 2 * acc + b) a = a * 2 ^ l.length + byteVal l := by
  induction l with
  | nil => intro a; simp [byteVal]
  | cons b t ih =>
    intro a
    show t.foldl _ (2 * a + b) = _
    rw [ih (2 * a + b)]
    have hb : byteVal (b :: t) = b * 2 ^ t.length + byteVal t := by
      show t.foldl _ (2 * 0 + b) = _
      rw [ih (2 * 0 + b)]
      ring
    rw [hb]
    simp [List.length_cons, pow_succ]
    ring

theorem byteVal_cons (b : Nat) (t : List Nat) :
    byteVal (b :: t) = b * 2 ^ t.length + byteVal t := by
  show t.foldl _ (2 * 0 + b) = _
  rw [byteVal_foldl]
  ring

theorem byteVal_append_replicate (l : List Nat) (m : Nat) :
    byteVal (l ++ List.replicate m 0) = byteVal l * 2 ^ m := by
  induction m with
  | zero => simp [byteVal]
  | succ k ih =>
    have : l ++ List.replicate (k + 1) 0 = (l ++ List.replicate k 0) ++ [0] := by
      simp [List.replicate_succ']
    rw [this]
    show ((l ++ List.replicate k 0) ++ [0]).foldl _ 0 = _
    rw [List.foldl_append]
    show 2 * byteVal (l ++ List.replicate k 0) + 0 = _
    rw [ih, pow_succ]
    ring

theorem byteVal_padTo8 (l : List Nat) :
    byteVal (padTo8 l) = byteVal l * 2 ^ (8 - l.length) := by
  unfold padTo8
  exact byteVal_append_replicate l _

/-! ### Helper lemmas: `to_byte` computes `byteVal` -/

theorem toByteStep_go (l : List Nat) :
    ∀ i acc : Nat, 1 ≤ i → (∀ b ∈ l, b ≤ 1) → l.length ≤ 8 →
      acc < 2 ^ (8 - l.length) →
      (l.foldl toByteStep (i, acc)).2 = l.foldl (fun a b => 2 * a + b) acc := by
  induction l with
  | nil => intro i acc _ _ _ _; rfl
  | cons b t ih =>
    intro i acc hi hb hlen hacc
    have hb1 : b ≤ 1 := hb b (List.mem_cons_self b t)
    have ht : ∀ x ∈ t, x ≤ 1 := fun x hx => hb x (List.mem_cons_of_mem b hx)
    have hlt : t.length ≤ 7 := by simpa [List.length_cons] using hlen
    have hacc' : acc < 2 ^ (7 - t.length) := by
      have h8 : (8 : Nat) - (b :: t).length = 7 - t.length := by
        simp only [List.length_cons]; omega
      rwa [h8] at hacc
    have hpow : 2 ^ (8 - t.length) = 2 * 2 ^ (7 - t.length) := by
      have h8 : (8 : Nat) - t.length = (7 - t.length) + 1 := by omega
      rw [h8, pow_succ]; ring
    have hle : (2 : Nat) ^ (8 - t.length) ≤ 256 := by
      have h1 : (2 : Nat) ^ (8 - t.length) ≤ 2 ^ 8 :=
        Nat.pow_le_pow_right (by omega) (by omega)
      have h2 : (2 : Nat) ^ 8 = 256 := by norm_num
      omega
    have hmod : 2 * acc % 256 = 2 * acc := by
      apply Nat.mod_eq_of_lt
      omega
    have hstep : toByteStep (i, acc) b = (i + 1, 2 * acc + b) := by
      unfold toByteStep
      have : i > 0 := hi
      simp [this, hmod, lor_two_mul_add acc b hb1]
    show (t.foldl toByteStep (toByteStep (i, acc) b)).2 = _
    rw [hstep, ih (i + 1) (2 * acc + b) (by omega) ht (by omega) (by omega)]
    rfl

theorem toByteL_eq_byteVal (bits : List Nat) (hlen : bits.length ≤ 8)
    (hb : ∀ b ∈ bits, b ≤ 1) : toByteL bits = byteVal bits := by
  cases bits with
  | nil => rfl
  | cons b t =>
    have hb1 : b ≤ 1 := hb b (List.mem_cons_self b t)
    have ht : ∀ x ∈ t, x ≤ 1 := fun x hx => hb x (List.mem_cons_of_mem b hx)
    have hstep : toByteStep (0, 0) b = (1, b) := by
      unfold toByteStep
      simp
      show (0 : Nat) ||| b = b
      simp
    show ((b :: t).foldl toByteStep (0, 0)).2 = _
    show (t.foldl toByteStep (toByteStep (0, 0) b)).2 = _
    rw [hstep]
    rw [toByteStep_go t 1 b (by omega) ht
      (by simp only [List.length_cons] at hlen; omega)
      (by
        have : t.length ≤ 7 := by simpa [List.length_cons] using hlen
        have h2 : (2 : Nat) ^ 1 ≤ 2 ^ (8 - t.length) := Nat.pow_le_pow_right (by omega) (by omega)
        omega)]
    show _ = (b :: t).foldl (fun a x => 2 * a + x) 0
    show _ = t.foldl (fun a x => 2 * a + x) (2 * 0 + b)
    norm_num

/-! ### Helper lemmas: chunking -/

theorem chunks8Go_nil (fuel : Nat) : chunks8Go fuel [] = [] := by
  cases fuel <;> rfl

theorem chunks8Go_irrel (f1 : Nat) :
    ∀ f2 (l : List Nat), l.length ≤ f1 → l.length ≤ f2 →
      chunks8Go f1 l = chunks8Go f2 l := by
  induction f1 with
  | zero =>
    intro f2 l h1 _
    have : l = [] := List.eq_nil_of_length_eq_zero (by omega)
    subst this
    rw [chunks8Go_nil, chunks8Go_nil]
  | succ f ih =>
    intro f2 l h1 h2
    cases l with
    | nil => rw [chunks8Go_nil, chunks8Go_nil]
    | cons b rest =>
      cases f2 with
      | zero => simp at h2
      | succ f2' =>
        show _ :: chunks8Go f ((b :: rest).drop 8) = _ :: chunks8Go f2' ((b :: rest).drop 8)
        have hd : ((b :: rest).drop 8).length = (b :: rest).length - 8 := by
          simp
        have hl : (b :: rest).length = rest.length + 1 := by simp
        rw [ih f2' ((b :: rest).drop 8) (by omega) (by omega)]

theorem chunks8_cons (l : List Nat) (h : l ≠ []) :
    chunks8 l = l.take 8 :: chunks8 (l.drop 8) := by
  cases l with
  | nil => exact absurd rfl h
  | cons b rest =>
    show chunks8Go ((b :: rest).length) (b :: rest) = _
    have hl : (b :: rest).length = rest.length + 1 := by simp
    rw [hl]
    show (b :: rest).take 8 :: chunks8Go rest.length ((b :: rest).drop 8) = _
    have hd : ((b :: rest).drop 8).length = rest.length + 1 - 8 := by simp
    rw [chunks8Go_irrel rest.length ((b :: rest).drop 8).length ((b :: rest).drop 8)
      (by omega) (by omega)]
    rfl

theorem chunks8_small (l : List Nat) (h : l ≠ []) (hlen : l.length ≤ 8) :
    chunks8 l = [l] := by
  rw [chunks8_cons l h, List.take_of_length_le hlen, List.drop_eq_nil_of_le hlen]
  rfl

theorem chunks8_of_eight (l r : List Nat) (h : l.length = 8) :
    chunks8 (l ++ r) = l :: chunks8 r := by
  have hne : l ++ r ≠ [] := by
    intro hc
    have := congrArg List.length hc
    simp [h] at this
  rw [chunks8_cons (l ++ r) hne]
  rw [List.take_append_of_le_length (by omega), List.take_of_length_le (by omega)]
  rw [List.drop_append_of_le_length (by omega), List.drop_eq_nil_of_le (by omega)]
  rfl

theorem chunks8_length_aux (n : Nat) :
    ∀ l : List Nat, l.length ≤ n → (chunks8 l).length = (l.length + 7) / 8 := by
  induction n with
  | zero =>
    intro l h
    have : l = [] := List.eq_nil_of_length_eq_zero (by omega)
    subst this
    rfl
  | succ k ih =>
    intro l h
    rcases List.eq_nil_or_concat l with rfl | _
    · rfl
    · have hne : l ≠ [] := by
        rename_i hc
        obtain ⟨t, a, rfl⟩ := hc
        simp
      rw [chunks8_cons l hne]
      have hd : (l.drop 8).length = l.length - 8 := by simp
      have hlen1 : 1 ≤ l.length := by
        cases l with
        | nil => exact absurd rfl hne
        | cons a t => simp
      rw [List.length_cons, ih (l.drop 8) (by omega)]
      omega

theorem chunks8_length (l : List Nat) :
    (chunks8 l).length = (l.length + 7) / 8 := by
  exact chunks8_length_aux l.length l (le_refl _)

theorem packBytes_length (l : List Nat) :
    (packBytes l).length = (l.length + 7) / 8 := by
  unfold packBytes
  rw [List.length_map, chunks8_length]

theorem chunks8_getLast_aux (n : Nat) :
    ∀ l : List Nat, l.length ≤ n → l.length % 8 ≠ 0 →
      ∃ c : List Nat, (chunks8 l).getLast? = some c ∧ c.length = l.length % 8 := by
  induction n with
  | zero =>
    intro l h hm
    have : l = [] := List.eq_nil_of_length_eq_zero (by omega)
    subst this
    simp at hm
  | succ k ih =>
    intro l h hm
    have hne : l ≠ [] := by
      intro hc; subst hc; simp at hm
    have hlen1 : 1 ≤ l.length := by
      cases l with
      | nil => exact absurd rfl hne
      | cons a t => simp
    rw [chunks8_cons l hne]
    by_cases hle : l.length ≤ 8
    · have h8 : l.length < 8 := by omega
      rw [List.take_of_length_le hle, List.drop_eq_nil_of_le hle]
      refine ⟨l, ?_, ?_⟩
      · rfl
      · omega
    · have hd : (l.drop 8).length = l.length - 8 := by simp
      obtain ⟨c, hc1, hc2⟩ := ih (l.drop 8) (by omega) (by omega)
      refine ⟨c, ?_, by omega⟩
      have hne2 : chunks8 (l.drop 8) ≠ [] := by
        intro hc
        rw [hc] at hc1
        simp at hc1
      rw [List.getLast?_cons, hc1]
      cases hcc : chunks8 (l.drop 8) with
      | nil => exact absurd hcc hne2
      | cons x xs =>
        rw [hcc] at hc1
        simp [List.getLastD_eq_getLast?, hc1]

theorem chunks8_getLast (l : List Nat) (hm : l.length % 8 ≠ 0) :
    ∃ c : List Nat, (chunks8 l).getLast? = some c ∧ c.length = l.length % 8 :=
  chunks8_getLast_aux l.length l (le_refl _) hm

theorem chunks8_append_of_mul (n : Nat) :
    ∀ xs ys : List Nat, xs.length = 8 * n →
      chunks8 (xs ++ ys) = chunks8 xs ++ chunks8 ys := by
  induction n with
  | zero =>
    intro xs ys h
    have : xs = [] := List.eq_nil_of_length_eq_zero (by omega)
    subst this
    rfl
  | succ k ih =>
    intro xs ys h
    have h8 : (xs.take 8).length = 8 := by
      rw [List.length_take]; omega
    have hsplit : xs = xs.take 8 ++ xs.drop 8 := (List.take_append_drop 8 xs).symm
    have hd : (xs.drop 8).length = 8 * k := by simp; omega
    calc chunks8 (xs ++ ys)
        = chunks8 ((xs.take 8 ++ xs.drop 8) ++ ys) := by rw [← hsplit]
      _ = chunks8 (xs.take 8 ++ (xs.drop 8 ++ ys)) := by rw [List.append_assoc]
      _ = xs.take 8 :: chunks8 (xs.drop 8 ++ ys) := chunks8_of_eight _ _ h8
      _ = xs.take 8 :: (chunks8 (xs.drop 8) ++ chunks8 ys) := by rw [ih _ ys hd]
      _ = (xs.take 8 :: chunks8 (xs.drop 8)) ++ chunks8 ys := rfl
      _ = chunks8 (xs.take 8 ++ xs.drop 8) ++ chunks8 ys := by
          rw [chunks8_of_eight _ _ h8]
      _ = chunks8 xs ++ chunks8 ys := by rw [← hsplit]

theorem packBytes_append_of_mul (xs ys : List Nat) (h : 8 ∣ xs.length) :
    packBytes (xs ++ ys) = packBytes xs ++ packBytes ys := by
  obtain ⟨n, hn⟩ := h
  unfold packBytes
  rw [chunks8_append_of_mul n xs ys hn, List.map_append]

/-! ### Helper lemmas: MSB-first positional value -/

theorem byteVal_mul_pow_eq_sum (held : List Nat) :
    ∀ e : Nat, held.length ≤ e + 1 →
      byteVal held * 2 ^ (e + 1 - held.length) =
        ∑ i in Finset.range held.length, held.getD i 0 * 2 ^ (e - i) := by
  induction held with
  | nil => intro e h; simp [byteVal]
  | cons b t ih =>
    intro e h
    have hlen : t.length ≤ e := by
      simp only [List.length_cons] at h; omega
    cases e with
    | zero =>
      have ht : t = [] := List.eq_nil_of_length_eq_zero (by omega)
      subst ht
      simp [byteVal_cons, byteVal]
    | succ e' =>
      have hexp : e' + 1 + 1 - (b :: t).length = e' + 1 - t.length := by
        simp only [List.length_cons]; omega
      rw [hexp, byteVal_cons, Nat.add_mul]
      have hb : b * 2 ^ t.length * 2 ^ (e' + 1 - t.length) = b * 2 ^ (e' + 1) := by
        rw [Nat.mul_assoc, ← pow_add]
        congr 2
        omega
      rw [hb, ih e' (by omega), List.length_cons, Finset.sum_range_succ']
      have hcongr :
          (∑ i in Finset.range t.length,
            (b :: t).getD (i + 1) 0 * 2 ^ (e' + 1 - (i + 1))) =
          ∑ i in Finset.range t.length, t.getD i 0 * 2 ^ (e' - i) := by
        apply Finset.sum_congr rfl
        intro i _
        rw [List.getD_cons_succ]
        congr 2
        omega
      rw [hcongr, List.getD_cons_zero]
      simp [Nat.add_comm]

theorem byteVal_padTo8_eq_sum (held : List Nat) (h : held.length ≤ 8) :
    byteVal (padTo8 held) =
      ∑ i in Finset.range held.length, held.getD i 0 * 2 ^ (7 - i) := by
  rw [byteVal_padTo8]
  exact byteVal_mul_pow_eq_sum held 7 h

/-! ### Reachable `Pack` states -/

/-- After a successful `Pack::write` the accumulator is cleared. -/
theorem write_ok_shape (p p' : Pack) (h : p.write = .ok p') :
    ∃ w : Sink, p' = ⟨w, List.replicate 8 0, 0⟩ := by
  unfold Pack.write at h
  cases hw : p.writer.write_all p.to_byte with
  | error e => rw [hw] at h; exact absurd h (by simp)
  | ok w =>
    rw [hw] at h
    refine ⟨w, ?_⟩
    have := h
    simp only [Except.ok.injEq] at this
    rw [← this]
    rfl

/-- Master invariant of reachable states: the accumulator is exactly a held
bit string of fewer than 8 bits (each satisfying `P`), the remaining slots
all zero, and `ctr` counts the held bits. -/
theorem reached_held {P : Nat → Prop} {p : Pack} (h : Reached P p) :
    ∃ held : List Nat, p.ctr = held.length ∧ held.length < 8 ∧
      p.bits = held ++ List.replicate (8 - held.length) 0 ∧ ∀ b ∈ held, P b := by
  induction h with
  | new w => exact ⟨[], rfl, by simp, rfl, by simp⟩
  | add p p' b _ hPb hadd ih =>
    obtain ⟨held, hctr, hlt, hbits, hP⟩ := ih
    have hblen : p.bits.length = 8 := by
      rw [hbits]; simp; omega
    have hset : p.bits.set held.length b =
        (held ++ [b]) ++ List.replicate (8 - (held.length + 1)) 0 := by
      rw [hbits, List.set_append]
      have : ¬ held.length < held.length := by omega
      rw [if_neg this]
      have hrep : (8 : Nat) - held.length = (8 - (held.length + 1)) + 1 := by omega
      rw [Nat.sub_self, hrep, List.replicate_succ, List.set_cons_zero,
        List.append_assoc]
      rfl
    unfold Pack.add at hadd
    simp only [List.length_set, hblen, hctr] at hadd
    by_cases hfull : held.length + 1 ≥ 8
    · rw [if_pos hfull] at hadd
      obtain ⟨w, rfl⟩ := write_ok_shape _ _ hadd
      exact ⟨[], rfl, by simp, rfl, by simp⟩
    · rw [if_neg hfull] at hadd
      simp only [Except.ok.injEq] at hadd
      refine ⟨held ++ [b], ?_, ?_, ?_, ?_⟩
      · rw [← hadd]; simp
      · simp; omega
      · rw [← hadd]
        show p.bits.set held.length b = _
        rw [hset]
        simp
      · intro x hx
        rcases List.mem_append.mp hx with hx | hx
        · exact hP x hx
        · simp at hx; subst hx; exact hPb
  | flush p p' _ hfl ih =>
    obtain ⟨held, hctr, hlt, hbits, hP⟩ := ih
    unfold Pack.flush at hfl
    by_cases hz : p.ctr = 0
    · rw [if_pos hz] at hfl
      simp only [Except.ok.injEq] at hfl
      subst hfl
      exact ⟨held, hctr, hlt, hbits, hP⟩
    · rw [if_neg hz] at hfl
      obtain ⟨w, rfl⟩ := write_ok_shape _ _ hfl
      exact ⟨[], rfl, by simp, rfl, by simp⟩

/-! ### Running the packer over a never-failing sink -/

theorem set_padded (held : List Nat) (b : Nat) (h : held.length < 8) :
    (held ++ List.replicate (8 - held.length) 0).set held.length b =
      (held ++ [b]) ++ List.replicate (8 - (held.length + 1)) 0 := by
  rw [List.set_append]
  have hnl : ¬ held.length < held.length := by omega
  rw [if_neg hnl]
  have hrep : (8 : Nat) - held.length = (8 - (held.length + 1)) + 1 := by omega
  rw [Nat.sub_self, hrep, List.replicate_succ, List.set_cons_zero,
    List.append_assoc]
  rfl

theorem padTo8_of_eight (l : List Nat) (h : l.length = 8) : padTo8 l = l := by
  unfold padTo8
  rw [h]
  simp

theorem wfPack_to_byte (p : Pack) (out held : List Nat) (hwf : wfPack p out held) :
    p.to_byte = byteVal (padTo8 held) := by
  obtain ⟨_, _, hlt, hbits, hP⟩ := hwf
  show toByteL p.bits = _
  rw [hbits]
  have : padTo8 held = held ++ List.replicate (8 - held.length) 0 := rfl
  rw [← this]
  apply toByteL_eq_byteVal
  · unfold padTo8
    simp
    omega
  · intro b hb
    unfold padTo8 at hb
    rcases List.mem_append.mp hb with hb | hb
    · exact hP b hb
    · rw [List.eq_of_mem_replicate hb]
      omega

theorem write_none (p : Pack) (out : List Nat) (hw : p.writer = ⟨out, none⟩) :
    p.write = .ok ⟨⟨out ++ [p.to_byte], none⟩, List.replicate 8 0, 0⟩ := by
  unfold Pack.write Sink.write_all Pack.clear
  rw [hw]

theorem packBytes_nil : packBytes [] = [] := rfl

theorem packBytes_single (l : List Nat) (hne : l ≠ []) (hlen : l.length ≤ 8) :
    packBytes l = [byteVal (padTo8 l)] := by
  unfold packBytes
  rw [chunks8_small l hne hlen]
  rfl

theorem packBytes_cons8 (l r : List Nat) (h : l.length = 8) :
    packBytes (l ++ r) = byteVal l :: packBytes r := by
  unfold packBytes
  rw [chunks8_of_eight l r h]
  simp [padTo8_of_eight l h]

theorem flush_wf (p : Pack) (out held : List Nat) (hwf : wfPack p out held) :
    ∃ r : Pack, p.flush = .ok r ∧
      r.writer.written = out ++ packBytes held ∧
      wfPack r (out ++ packBytes held) [] := by
  obtain ⟨hw, hctr, hlt, hbits, hP⟩ := hwf
  unfold Pack.flush
  by_cases hz : held = []
  · subst hz
    rw [hctr]
    simp only [List.length_nil, if_pos rfl]
    refine ⟨p, rfl, ?_, ?_⟩
    · rw [hw]
      show out = out ++ packBytes []
      simp [packBytes_nil]
    · refine ⟨?_, hctr, hlt, hbits, hP⟩
      rw [hw]
      show Sink.mk out none = ⟨out ++ packBytes [], none⟩
      simp [packBytes_nil]
  · have hz' : ¬ p.ctr = 0 := by
      rw [hctr]
      simp [List.length_eq_zero]
      exact hz
    rw [if_neg hz']
    rw [write_none p out hw]
    rw [wfPack_to_byte p out held ⟨hw, hctr, hlt, hbits, hP⟩]
    rw [packBytes_single held hz (by omega)]
    exact ⟨_, rfl, rfl, rfl, rfl, by simp, rfl, by simp⟩

theorem addAll_wf (bs : List Nat) :
    ∀ (p : Pack) (out held : List Nat), wfPack p out held → (∀ b ∈ bs, b ≤ 1) →
      ∃ (q : Pack) (out' held' : List Nat), p.addAll bs = .ok q ∧
        wfPack q out' held' ∧ out' ++ packBytes held' = out ++ packBytes (held ++ bs) ∧
        out'.length + ((held'.length + 7) / 8) =
          out.length + ((held.length + bs.length + 7) / 8) ∧
        held'.length % 8 = (held.length + bs.length) % 8 := by
  induction bs with
  | nil =>
    intro p out held hwf _
    refine ⟨p, out, held, rfl, hwf, by simp, by simp, by simp⟩
  | cons b rest ih =>
    intro p out held hwf hb
    obtain ⟨hw, hctr, hlt, hbits, hP⟩ := hwf
    have hb1 : b ≤ 1 := hb b (List.mem_cons_self b rest)
    have hrest : ∀ x ∈ rest, x ≤ 1 := fun x hx => hb x (List.mem_cons_of_mem b hx)
    have hblen : p.bits.length = 8 := by
      rw [hbits]; simp; omega
    have hset : p.bits.set p.ctr b =
        (held ++ [b]) ++ List.replicate (8 - (held.length + 1)) 0 := by
      rw [hbits, hctr]
      exact set_padded held b hlt
    by_cases hfull : held.length + 1 ≥ 8
    · -- the byte fills up: `add` writes it out and clears
      have hlen8 : (held ++ [b]).length = 8 := by simp; omega
      have hq : p.add b =
          Pack.write ⟨p.writer, p.bits.set p.ctr b, p.ctr + 1⟩ := by
        unfold Pack.add
        simp only [List.length_set, hblen, hctr]
        rw [if_pos (by omega)]
      have hbyte : Pack.to_byte ⟨p.writer, p.bits.set p.ctr b, p.ctr + 1⟩ =
          byteVal (held ++ [b]) := by
        show toByteL (p.bits.set p.ctr b) = _
        rw [hset]
        have hrep0 : (8 : Nat) - (held.length + 1) = 0 := by omega
        rw [hrep0]
        simp only [List.replicate_zero, List.append_nil]
        apply toByteL_eq_byteVal
        · simp; omega
        · intro x hx
          rcases List.mem_append.mp hx with hx | hx
          · exact hP x hx
          · simp at hx; subst hx; exact hb1
      have hwrite := write_none ⟨p.writer, p.bits.set p.ctr b, p.ctr + 1⟩ out hw
      rw [hbyte] at hwrite
      have hadd : p.add b = .ok ⟨⟨out ++ [byteVal (held ++ [b])], none⟩,
          List.replicate 8 0, 0⟩ := by
        rw [hq, hwrite]
      have hstep : p.addAll (b :: rest) =
          Pack.addAll ⟨⟨out ++ [byteVal (held ++ [b])], none⟩,
            List.replicate 8 0, 0⟩ rest := by
        show (match p.add b with
          | Except.error e => Except.error e
          | Except.ok p => p.addAll rest) = _
        rw [hadd]
      rw [hstep]
      obtain ⟨q, out', held', hq', hwf', hout', hlenEq, hmod⟩ :=
        ih ⟨⟨out ++ [byteVal (held ++ [b])], none⟩, List.replicate 8 0, 0⟩
          (out ++ [byteVal (held ++ [b])]) [] ⟨rfl, rfl, by simp, rfl, by simp⟩ hrest
      refine ⟨q, out', held', hq', hwf', ?_, ?_, ?_⟩
      · rw [hout']
        have hsplit : held ++ b :: rest = (held ++ [b]) ++ rest := by
          rw [List.append_assoc]; rfl
        rw [hsplit, packBytes_cons8 (held ++ [b]) rest hlen8]
        simp [packBytes, chunks8]
      · rw [hlenEq]
        simp only [List.length_nil, List.length_append, List.length_cons]
        omega
      · rw [hmod]
        simp only [List.length_nil, List.length_cons]
        omega
    · -- room left in the accumulator
      have hadd : p.add b = .ok ⟨p.writer, p.bits.set p.ctr b, p.ctr + 1⟩ := by
        unfold Pack.add
        simp only [List.length_set, hblen, hctr]
        rw [if_neg (by omega)]
      have hstep : p.addAll (b :: rest) =
          Pack.addAll ⟨p.writer, p.bits.set p.ctr b, p.ctr + 1⟩ rest := by
        show (match p.add b with
          | Except.error e => Except.error e
          | Except.ok p => p.addAll rest) = _
        rw [hadd]
      rw [hstep]
      have hwf1 : wfPack ⟨p.writer, p.bits.set p.ctr b, p.ctr + 1⟩ out (held ++ [b]) := by
        refine ⟨hw, by simp [hctr], by simp; omega, ?_, ?_⟩
        · show p.bits.set p.ctr b = _
          rw [hset]
          simp
        · intro x hx
          rcases List.mem_append.mp hx with hx | hx
          · exact hP x hx
          · simp at hx; subst hx; exact hb1
      obtain ⟨q, out', held', hq', hwf', hout', hlenEq, hmod⟩ :=
        ih ⟨p.writer, p.bits.set p.ctr b, p.ctr + 1⟩ out (held ++ [b]) hwf1 hrest
      refine ⟨q, out', held', hq', hwf', ?_, ?_, ?_⟩
      · rw [hout']
        rw [List.append_assoc]
        rfl
      · rw [hlenEq]
        simp only [List.length_append, List.length_singleton, List.length_cons,
          List.length_nil]
        omega
      · rw [hmod]
        simp only [List.length_append, List.length_singleton, List.length_cons,
          List.length_nil]
        omega

/-! ### Row processing -/

theorem thresholdBit_le_one (px t : Nat) : thresholdBit px t ≤ 1 := by
  unfold thresholdBit
  split <;> omega

theorem rowBits_le_one (s : Settings) (row : List Nat) :
    ∀ b ∈ rowBits s row, b ≤ 1 := by
  intro b hb
  obtain ⟨px, _, rfl⟩ := List.mem_map.mp hb
  exact thresholdBit_le_one px s.threshold

theorem processRow_eq_addAll (s : Settings) (row : List Nat) :
    ∀ p : Pack, processRow s p row = p.addAll (rowBits s row) := by
  induction row with
  | nil => intro p; rfl
  | cons px rest ih =>
    intro p
    show (match p.add (thresholdBit px s.threshold) with
      | Except.error e => Except.error e
      | Except.ok p => processRow s p rest) =
      (match p.add (thresholdBit px s.threshold) with
      | Except.error e => Except.error e
      | Except.ok p => p.addAll (rowBits s rest))
    cases p.add (thresholdBit px s.threshold) with
    | error e => rfl
    | ok q => exact ih q

theorem addAll_append (xs ys : List Nat) :
    ∀ p : Pack, p.addAll (xs ++ ys) =
      match p.addAll xs with
      | Except.error e => Except.error e
      | Except.ok q => q.addAll ys := by
  induction xs with
  | nil => intro p; rfl
  | cons x xs ih =>
    intro p
    have hR : p.addAll (x :: xs) =
        (match p.add x with
          | Except.error e => Except.error e
          | Except.ok q => q.addAll xs) := rfl
    show (match p.add x with
      | Except.error e => Except.error e
      | Except.ok q => q.addAll (xs ++ ys)) = _
    rw [hR]
    cases p.add x with
    | error e => rfl
    | ok q => exact ih q

theorem processRows_aligned (s : Settings) (hm : s.no_flush_after_pixel_row = false)
    (rows : List (List Nat)) :
    ∀ (p : Pack) (out : List Nat), wfPack p out [] →
      ∃ q : Pack, processRows s p rows = .ok q ∧
        wfPack q (out ++ alignedBytes s rows) [] := by
  induction rows with
  | nil =>
    intro p out hwf
    refine ⟨p, rfl, ?_⟩
    have : alignedBytes s [] = [] := rfl
    rw [this, List.append_nil]
    exact hwf
  | cons row rest ih =>
    intro p out hwf
    obtain ⟨q1, o1, h1, hq1, hwf1, hout1, _, _⟩ :=
      addAll_wf (rowBits s row) p out [] hwf (rowBits_le_one s row)
    obtain ⟨r, hr, hwr, hwfr⟩ := flush_wf q1 o1 h1 hwf1
    have hrow : processRow s p row = .ok q1 := by
      rw [processRow_eq_addAll s row p]
      exact hq1
    have hpack : o1 ++ packBytes h1 = out ++ packBytes (rowBits s row) := by
      rw [hout1]
      rfl
    rw [hpack] at hwfr
    obtain ⟨q, hq, hwfq⟩ := ih r (out ++ packBytes (rowBits s row)) hwfr
    refine ⟨q, ?_, ?_⟩
    · show (match processRow s p row with
        | Except.error e => Except.error e
        | Except.ok p =>
          match (if s.no_flush_after_pixel_row then Except.ok p else p.flush) with
          | Except.error e => Except.error e
          | Except.ok p => processRows s p rest) = Except.ok q
      rw [hrow, hm]
      show (match q1.flush with
        | Except.error e => Except.error e
        | Except.ok p => processRows s p rest) = Except.ok q
      rw [hr]
      exact hq
    · have : alignedBytes s (row :: rest) =
          packBytes (rowBits s row) ++ alignedBytes s rest := rfl
      rw [this, ← List.append_assoc]
      exact hwfq

theorem processRows_continuous (s : Settings) (hm : s.no_flush_after_pixel_row = true)
    (rows : List (List Nat)) :
    ∀ p : Pack, processRows s p rows = p.addAll (contBits s rows) := by
  induction rows with
  | nil => intro p; rfl
  | cons row rest ih =>
    intro p
    have hsplit : contBits s (row :: rest) = rowBits s row ++ contBits s rest := rfl
    rw [hsplit, addAll_append]
    show (match processRow s p row with
      | Except.error e => Except.error e
      | Except.ok p =>
        match (if s.no_flush_after_pixel_row then Except.ok p else p.flush) with
        | Except.error e => Except.error e
        | Except.ok p => processRows s p rest) = _
    rw [processRow_eq_addAll s row p, hm]
    cases p.addAll (rowBits s row) with
    | error e => rfl
    | ok q =>
      show processRows s q rest = q.addAll (contBits s rest)
      exact ih q

theorem wfPack_new : wfPack (Pack.new ⟨[], none⟩) [] [] := by
  refine ⟨rfl, rfl, by simp, rfl, by simp⟩

theorem process_image_aligned (s : Settings) (hm : s.no_flush_after_pixel_row = false)
    (rows : List (List Nat)) :
    process_image rows ⟨[], none⟩ s = .ok (alignedBytes s rows) := by
  obtain ⟨q, hq, hwfq⟩ := processRows_aligned s hm rows (Pack.new ⟨[], none⟩) [] wfPack_new
  obtain ⟨r, hr, hwr, _⟩ := flush_wf q ([] ++ alignedBytes s rows) [] hwfq
  show (match processRows s (Pack.new ⟨[], none⟩) rows with
    | Except.error e => Except.error e
    | Except.ok pack =>
      match pack.flush with
      | Except.error e => Except.error e
      | Except.ok pack => Except.ok pack.writer.written) = _
  rw [hq]
  show (match q.flush with
    | Except.error e => Except.error e
    | Except.ok pack => Except.ok pack.writer.written) = _
  rw [hr]
  show Except.ok r.writer.written = _
  rw [hwr]
  simp [packBytes_nil]

theorem process_image_continuous (s : Settings) (hm : s.no_flush_after_pixel_row = true)
    (rows : List (List Nat)) :
    process_image rows ⟨[], none⟩ s = .ok (packBytes (contBits s rows)) := by
  obtain ⟨q, o1, h1, hq, hwfq, hout, _, _⟩ :=
    addAll_wf (contBits s rows) (Pack.new ⟨[], none⟩) [] [] wfPack_new
      (by
        intro b hb
        unfold contBits at hb
        obtain ⟨l, hl, hbl⟩ := List.mem_flatten.mp hb
        obtain ⟨r, _, rfl⟩ := List.mem_map.mp hl
        exact rowBits_le_one s r b hbl)
  obtain ⟨r, hr, hwr, _⟩ := flush_wf q o1 h1 hwfq
  show (match processRows s (Pack.new ⟨[], none⟩) rows with
    | Except.error e => Except.error e
    | Except.ok pack =>
      match pack.flush with
      | Except.error e => Except.error e
      | Except.ok pack => Except.ok pack.writer.written) = _
  rw [processRows_continuous s hm rows (Pack.new ⟨[], none⟩), hq]
  show (match q.flush with
    | Except.error e => Except.error e
    | Except.ok pack => Except.ok pack.writer.written) = _
  rw [hr]
  show Except.ok r.writer.written = _
  rw [hwr, hout]
  simp [packBytes_nil]

/-! ### Claim C1 -/

theorem runPack_eq (bs : List Nat) (hb : ∀ b ∈ bs, b ≤ 1) :
    runPack bs = .ok (packBytes bs) := by
  obtain ⟨q, o1, h1, hq, hwfq, hout, _, _⟩ :=
    addAll_wf bs (Pack.new ⟨[], none⟩) [] [] wfPack_new hb
  obtain ⟨r, hr, hwr, _⟩ := flush_wf q o1 h1 hwfq
  show (match (Pack.new ⟨[], none⟩).addAll bs with
    | Except.error e => Except.error e
    | Except.ok p =>
      match p.flush with
      | Except.error e => Except.error e
      | Except.ok p => Except.ok p.writer.written) = _
  rw [hq]
  show (match q.flush with
    | Except.error e => Except.error e
    | Except.ok p => Except.ok p.writer.written) = _
  rw [hr]
  show Except.ok r.writer.written = _
  rw [hwr, hout]
  simp

theorem packBytes_getLast (bs : List Nat) (hm : bs.length % 8 ≠ 0) :
    ∃ last, (packBytes bs).getLast? = some last ∧
      last % 2 ^ (8 - bs.length % 8) = 0 := by
  obtain ⟨c, hc, hclen⟩ := chunks8_getLast bs hm
  refine ⟨byteVal (padTo8 c), ?_, ?_⟩
  · unfold packBytes
    rw [List.getLast?_map, hc]
    rfl
  · rw [byteVal_padTo8, hclen]
    exact Nat.mul_mod_left _ _

/-- C1: feeding any sequence of `N` bits (each 0 or 1) through `add` and
then one `flush` writes exactly `ceil(N/8)` bytes, and when `N mod 8 ≠ 0` the
last written byte has its low-order `8 - (N mod 8)` bits zero. -/
theorem add_flush_stream_length_and_padding (bs : List Nat)
    (hb : ∀ b ∈ bs, b ≤ 1) :
    ∃ out : List Nat, runPack bs = .ok out ∧
      out.length = (bs.length + 7) / 8 ∧
      (bs.length % 8 ≠ 0 →
        ∃ last, out.getLast? = some last ∧
          last % 2 ^ (8 - bs.length % 8) = 0) :=
  ⟨packBytes bs, runPack_eq bs hb, packBytes_length bs,
    fun hm => packBytes_getLast bs hm⟩

theorem add_flush_stream_length_and_padding_witness :
    (∀ b ∈ ([1, 1, 0, 1, 0, 1, 1, 0, 1, 0, 1] : List Nat), b ≤ 1) ∧
    (∃ out : List Nat, runPack [1, 1, 0, 1, 0, 1, 1, 0, 1, 0, 1] = .ok out ∧
      out.length = (([1, 1, 0, 1, 0, 1, 1, 0, 1, 0, 1] : List Nat).length + 7) / 8 ∧
      (([1, 1, 0, 1, 0, 1, 1, 0, 1, 0, 1] : List Nat).length % 8 ≠ 0 →
        ∃ last, out.getLast? = some last ∧
          last % 2 ^ (8 - ([1, 1, 0, 1, 0, 1, 1, 0, 1, 0, 1] : List Nat).length % 8) = 0)) :=
  ⟨by decide, add_flush_stream_length_and_padding [1, 1, 0, 1, 0, 1, 1, 0, 1, 0, 1] (by decide)⟩

/-! ### Claim C2 -/

/-- C2: every emitted byte (full `add`-triggered emissions, `k = 8`, and
padded `flush` emissions, `k < 8`, both go through `Pack::write` on an
accumulator holding `b0 … b_{k-1}` followed by zero slots) has value
`b0·2^7 + b1·2^6 + … + b_{k-1}·2^{7-(k-1)}`, the first added bit in the most
significant position and unfilled positions zero. -/
theorem emitted_byte_is_msb_first_value (held out : List Nat)
    (hlen : held.length ≤ 8) (hb : ∀ b ∈ held, b ≤ 1) :
    Pack.write ⟨⟨out, none⟩, held ++ List.replicate (8 - held.length) 0, held.length⟩ =
      .ok ⟨⟨out ++ [∑ i in Finset.range held.length, held.getD i 0 * 2 ^ (7 - i)], none⟩,
        List.replicate 8 0, 0⟩ := by
  rw [write_none ⟨⟨out, none⟩, held ++ List.replicate (8 - held.length) 0, held.length⟩
    out rfl]
  have hbyte : Pack.to_byte
      ⟨⟨out, none⟩, held ++ List.replicate (8 - held.length) 0, held.length⟩ =
      ∑ i in Finset.range held.length, held.getD i 0 * 2 ^ (7 - i) := by
    show toByteL (held ++ List.replicate (8 - held.length) 0) = _
    rw [toByteL_eq_byteVal _ (by simp; omega)
      (by
        intro x hx
        rcases List.mem_append.mp hx with hx | hx
        · exact hb x hx
        · rw [List.eq_of_mem_replicate hx]; omega)]
    show byteVal (padTo8 held) = _
    exact byteVal_padTo8_eq_sum held hlen
  rw [hbyte]

theorem emitted_byte_is_msb_first_value_witness :
    (([1, 0, 1] : List Nat).length ≤ 8) ∧
    (∀ b ∈ ([1, 0, 1] : List Nat), b ≤ 1) ∧
    Pack.write ⟨⟨[], none⟩,
        [1, 0, 1] ++ List.replicate (8 - ([1, 0, 1] : List Nat).length) 0,
        ([1, 0, 1] : List Nat).length⟩ =
      .ok ⟨⟨[] ++ [∑ i in Finset.range ([1, 0, 1] : List Nat).length,
          ([1, 0, 1] : List Nat).getD i 0 * 2 ^ (7 - i)], none⟩,
        List.replicate 8 0, 0⟩ :=
  ⟨by decide, by decide,
    emitted_byte_is_msb_first_value [1, 0, 1] [] (by decide) (by decide)⟩

/-! ### Claim C3 -/

/-- C3: the thresholder emits 1 iff the sample strictly exceeds the
threshold; a sample equal to the threshold gives 0, threshold 255 turns every
pixel off, threshold 0 turns every pixel on except luminance 0. -/
theorem threshold_strict_greater (sample threshold : Nat)
    (hs : sample ≤ 255) (ht : threshold ≤ 255) :
    (thresholdBit sample threshold = 1 ↔ threshold < sample) ∧
      (sample = threshold → thresholdBit sample threshold = 0) ∧
      thresholdBit sample 255 = 0 ∧
      thresholdBit sample 0 = (if sample = 0 then 0 else 1) := by
  refine ⟨?_, ?_, ?_, ?_⟩
  · unfold thresholdBit
    split <;> rename_i h
    · simpa using h
    · simp only [gt_iff_lt, Nat.not_lt] at h
      constructor
      · intro h1; omega
      · intro h1; omega
  · intro h
    unfold thresholdBit
    rw [if_neg (by omega)]
  · unfold thresholdBit
    rw [if_neg (by omega)]
  · unfold thresholdBit
    by_cases h0 : sample = 0
    · subst h0
      simp
    · rw [if_pos (by omega), if_neg h0]

theorem threshold_strict_greater_witness :
    ((100 : Nat) ≤ 255) ∧ ((100 : Nat) ≤ 255) ∧
    ((thresholdBit 100 100 = 1 ↔ 100 < 100) ∧
      (100 = 100 → thresholdBit 100 100 = 0) ∧
      thresholdBit 100 255 = 0 ∧
      thresholdBit 100 0 = (if (100 : Nat) = 0 then 0 else 1)) :=
  ⟨by decide, by decide, threshold_strict_greater 100 100 (by decide) (by decide)⟩

/-! ### Claims C4 and C5 -/

theorem sum_map_eq_card_mul {α : Type} (l : List α) (f : α → Nat) (c : Nat)
    (h : ∀ x ∈ l, f x = c) : (l.map f).sum = l.length * c := by
  induction l with
  | nil => simp
  | cons a t ih =>
    rw [List.map_cons, List.sum_cons, ih (fun x hx => h x (List.mem_cons_of_mem a hx)),
      h a (List.mem_cons_self a t), List.length_cons]
    ring

theorem alignedBytes_length (s : Settings) (rows : List (List Nat)) (w : Nat)
    (h : ∀ r ∈ rows, r.length = w) :
    (alignedBytes s rows).length = rows.length * ((w + 7) / 8) := by
  unfold alignedBytes
  rw [List.length_flatten, List.map_map]
  apply sum_map_eq_card_mul
  intro r hr
  show (packBytes (rowBits s r)).length = _
  rw [packBytes_length]
  unfold rowBits
  rw [List.length_map, h r hr]

theorem contBits_length (s : Settings) (rows : List (List Nat)) (w : Nat)
    (h : ∀ r ∈ rows, r.length = w) :
    (contBits s rows).length = w * rows.length := by
  unfold contBits
  rw [List.length_flatten, List.map_map]
  rw [sum_map_eq_card_mul rows _ w
    (fun r hr => by
      show (rowBits s r).length = w
      unfold rowBits
      rw [List.length_map, h r hr])]
  ring

/-- C4: on a `w × h` grid, row-aligned mode writes `h * ceil(w/8)` bytes
(each row contributing `ceil(w/8)`) and continuous mode writes
`ceil(w*h/8)` bytes. -/
theorem process_image_output_sizes (rows : List (List Nat)) (w t : Nat)
    (h : ∀ r ∈ rows, r.length = w) :
    (∃ outA, process_image rows ⟨[], none⟩ ⟨t, false⟩ = .ok outA ∧
        outA.length = rows.length * ((w + 7) / 8)) ∧
    (∃ outC, process_image rows ⟨[], none⟩ ⟨t, true⟩ = .ok outC ∧
        outC.length = (w * rows.length + 7) / 8) := by
  constructor
  · exact ⟨alignedBytes ⟨t, false⟩ rows, process_image_aligned ⟨t, false⟩ rfl rows,
      alignedBytes_length ⟨t, false⟩ rows w h⟩
  · refine ⟨packBytes (contBits ⟨t, true⟩ rows),
      process_image_continuous ⟨t, true⟩ rfl rows, ?_⟩
    rw [packBytes_length, contBits_length ⟨t, true⟩ rows w h]

theorem process_image_output_sizes_witness :
    (∀ r ∈ ([[200, 0, 0, 0, 0, 0, 0], [0, 0, 0, 0, 0, 0, 0]] : List (List Nat)),
      r.length = 7) ∧
    ((∃ outA, process_image [[200, 0, 0, 0, 0, 0, 0], [0, 0, 0, 0, 0, 0, 0]]
        ⟨[], none⟩ ⟨100, false⟩ = .ok outA ∧
        outA.length = ([[200, 0, 0, 0, 0, 0, 0], [0, 0, 0, 0, 0, 0, 0]] :
          List (List Nat)).length * ((7 + 7) / 8)) ∧
      (∃ outC, process_image [[200, 0, 0, 0, 0, 0, 0], [0, 0, 0, 0, 0, 0, 0]]
        ⟨[], none⟩ ⟨100, true⟩ = .ok outC ∧
        outC.length = (7 * ([[200, 0, 0, 0, 0, 0, 0], [0, 0, 0, 0, 0, 0, 0]] :
          List (List Nat)).length + 7) / 8)) :=
  ⟨by decide, process_image_output_sizes [[200, 0, 0, 0, 0, 0, 0], [0, 0, 0, 0, 0, 0, 0]]
    7 100 (by decide)⟩

theorem flatten_packBytes (ls : List (List Nat)) (h : ∀ l ∈ ls, 8 ∣ l.length) :
    (ls.map packBytes).flatten = packBytes ls.flatten := by
  induction ls with
  | nil => simp [packBytes_nil]
  | cons l rest ih =>
    show packBytes l ++ (rest.map packBytes).flatten = packBytes (l ++ rest.flatten)
    rw [ih (fun x hx => h x (List.mem_cons_of_mem l hx)),
      packBytes_append_of_mul l rest.flatten (h l (List.mem_cons_self l rest))]

theorem alignedBytes_eq_packed (s : Settings) (rows : List (List Nat)) (w : Nat)
    (hw : ∀ r ∈ rows, r.length = w) (hdvd : 8 ∣ w) :
    alignedBytes s rows = packBytes (contBits s rows) := by
  unfold alignedBytes contBits
  have hmm : rows.map (fun r => packBytes (rowBits s r)) =
      (rows.map (rowBits s)).map packBytes := by
    rw [List.map_map]
    rfl
  rw [hmm, flatten_packBytes]
  intro l hl
  obtain ⟨r, hr, rfl⟩ := List.mem_map.mp hl
  show 8 ∣ (rowBits s r).length
  unfold rowBits
  rw [List.length_map, hw r hr]
  exact hdvd

theorem ceil_mul_le (w h : Nat) : (w * h + 7) / 8 ≤ h * ((w + 7) / 8) := by
  have h1 : w ≤ 8 * ((w + 7) / 8) := by omega
  have h2 : w * h ≤ 8 * ((w + 7) / 8) * h := Nat.mul_le_mul_right h h1
  have h3 : 8 * ((w + 7) / 8) * h = 8 * ((w + 7) / 8 * h) := by ring
  calc (w * h + 7) / 8 ≤ (8 * ((w + 7) / 8 * h) + 7) / 8 := by
        apply Nat.div_le_div_right
        omega
    _ = (w + 7) / 8 * h := by omega
    _ = h * ((w + 7) / 8) := Nat.mul_comm _ _

/-- C5 counterexample: on the non-empty 7×1 grid `[[0,…,0]]`, whose
width 7 is not a multiple of 8, row-aligned and continuous mode both write the
single byte `0x00` — the row-aligned output is not strictly longer. -/
theorem row_aligned_not_strictly_longer_on_7x1 :
    process_image [[0, 0, 0, 0, 0, 0, 0]] ⟨[], none⟩ ⟨100, false⟩ = .ok [0] ∧
    process_image [[0, 0, 0, 0, 0, 0, 0]] ⟨[], none⟩ ⟨100, true⟩ = .ok [0] :=
  ⟨rfl, rfl⟩

/-- C5 amended: if the width is a multiple of 8, both modes produce
byte-identical output; for a non-empty grid whose width is not a multiple of
8, the row-aligned output is at least as long as the continuous output (it
can be equal, e.g. on a 7×1 grid), and the continuous output has length
`ceil(w*h/8)`. -/
theorem row_aligned_vs_continuous (rows : List (List Nat)) (w t : Nat)
    (h : ∀ r ∈ rows, r.length = w) :
    (8 ∣ w → process_image rows ⟨[], none⟩ ⟨t, false⟩ =
      process_image rows ⟨[], none⟩ ⟨t, true⟩) ∧
    (w % 8 ≠ 0 → rows ≠ [] →
      ∃ outA outC, process_image rows ⟨[], none⟩ ⟨t, false⟩ = .ok outA ∧
        process_image rows ⟨[], none⟩ ⟨t, true⟩ = .ok outC ∧
        outC.length ≤ outA.length ∧
        outC.length = (w * rows.length + 7) / 8) := by
  constructor
  · intro hdvd
    rw [process_image_aligned ⟨t, false⟩ rfl rows,
      process_image_continuous ⟨t, true⟩ rfl rows]
    rw [alignedBytes_eq_packed ⟨t, false⟩ rows w h hdvd]
    rfl
  · intro _ _
    refine ⟨alignedBytes ⟨t, false⟩ rows, packBytes (contBits ⟨t, true⟩ rows),
      process_image_aligned ⟨t, false⟩ rfl rows,
      process_image_continuous ⟨t, true⟩ rfl rows, ?_, ?_⟩
    · rw [alignedBytes_length ⟨t, false⟩ rows w h, packBytes_length,
        contBits_length ⟨t, true⟩ rows w h]
      exact ceil_mul_le w rows.length
    · rw [packBytes_length, contBits_length ⟨t, true⟩ rows w h]

theorem row_aligned_vs_continuous_witness :
    (∀ r ∈ ([[200, 0, 0, 0, 0, 0, 0], [0, 0, 0, 0, 0, 0, 0]] : List (List Nat)),
      r.length = 7) ∧
    ((8 ∣ 7 → process_image [[200, 0, 0, 0, 0, 0, 0], [0, 0, 0, 0, 0, 0, 0]]
        ⟨[], none⟩ ⟨100, false⟩ =
      process_image [[200, 0, 0, 0, 0, 0, 0], [0, 0, 0, 0, 0, 0, 0]]
        ⟨[], none⟩ ⟨100, true⟩) ∧
    (7 % 8 ≠ 0 → ([[200, 0, 0, 0, 0, 0, 0], [0, 0, 0, 0, 0, 0, 0]] :
        List (List Nat)) ≠ [] →
      ∃ outA outC, process_image [[200, 0, 0, 0, 0, 0, 0], [0, 0, 0, 0, 0, 0, 0]]
          ⟨[], none⟩ ⟨100, false⟩ = .ok outA ∧
        process_image [[200, 0, 0, 0, 0, 0, 0], [0, 0, 0, 0, 0, 0, 0]]
          ⟨[], none⟩ ⟨100, true⟩ = .ok outC ∧
        outC.length ≤ outA.length ∧
        outC.length = (7 * ([[200, 0, 0, 0, 0, 0, 0], [0, 0, 0, 0, 0, 0, 0]] :
          List (List Nat)).length + 7) / 8)) :=
  ⟨by decide, row_aligned_vs_continuous [[200, 0, 0, 0, 0, 0, 0], [0, 0, 0, 0, 0, 0, 0]]
    7 100 (by decide)⟩

/-! ### Claim C6 -/

theorem write_all_ok_written (s : Sink) (v : Nat) (w : Sink)
    (h : s.write_all v = .ok w) : w.written = s.written ++ [v] := by
  unfold Sink.write_all at h
  cases hb : s.budget with
  | none =>
    rw [hb] at h
    simp only [Except.ok.injEq] at h
    rw [← h]
  | some k =>
    cases k with
    | zero => rw [hb] at h; exact absurd h (by simp)
    | succ m =>
      rw [hb] at h
      simp only [Except.ok.injEq] at h
      rw [← h]

theorem write_ok_parts (p p' : Pack) (h : p.write = .ok p') :
    p'.writer.written = p.writer.written ++ [p.to_byte] ∧
      p'.ctr = 0 ∧ p'.bits = List.replicate 8 0 := by
  unfold Pack.write at h
  cases hw : p.writer.write_all p.to_byte with
  | error e => rw [hw] at h; exact absurd h (by simp)
  | ok w =>
    rw [hw] at h
    simp only [Except.ok.injEq] at h
    have hwr := write_all_ok_written p.writer p.to_byte w hw
    rw [← h]
    exact ⟨hwr, rfl, rfl⟩

/-- C6: in every reachable `Pack` state the counter is in `[0, 8)`, and an
`add` that brings the count to 8 immediately writes one assembled byte and
resets the accumulator to count 0 before returning. -/
theorem ctr_invariant_and_emit_on_full (p : Pack)
    (h : Reached (fun _ => True) p) :
    p.ctr < 8 ∧
      ∀ b p', p.add b = .ok p' → p.ctr + 1 = 8 →
        ∃ byte, p'.writer.written = p.writer.written ++ [byte] ∧
          p'.ctr = 0 ∧ p'.bits = List.replicate 8 0 := by
  obtain ⟨held, hctr, hlt, hbits, _⟩ := reached_held h
  refine ⟨by omega, ?_⟩
  intro b p' hadd hfull
  have hblen : p.bits.length = 8 := by
    rw [hbits]; simp; omega
  unfold Pack.add at hadd
  simp only [List.length_set, hblen] at hadd
  rw [if_pos (by omega)] at hadd
  obtain ⟨hw, hc, hb⟩ := write_ok_parts _ _ hadd
  exact ⟨_, hw, hc, hb⟩

theorem ctr_invariant_and_emit_on_full_witness :
    (Pack.new ⟨[], none⟩).ctr < 8 ∧
      ∀ b p', (Pack.new ⟨[], none⟩).add b = .ok p' →
        (Pack.new ⟨[], none⟩).ctr + 1 = 8 →
        ∃ byte, p'.writer.written = (Pack.new ⟨[], none⟩).writer.written ++ [byte] ∧
          p'.ctr = 0 ∧ p'.bits = List.replicate 8 0 :=
  ctr_invariant_and_emit_on_full (Pack.new ⟨[], none⟩) (Reached.new ⟨[], none⟩)

/-! ### Claim C8 -/

/-- C8: flushing an empty accumulator writes nothing, leaves the state
unchanged and succeeds; after any successful flush the accumulator is empty,
so repeated flushes write nothing more than a single flush. -/
theorem flush_empty_noop_and_idempotent (p q : Pack) (h : p.flush = .ok q) :
    q.flush = .ok q ∧ (p.ctr = 0 → p.flush = .ok p ∧ q = p) := by
  unfold Pack.flush at h
  by_cases hz : p.ctr = 0
  · rw [if_pos hz] at h
    simp only [Except.ok.injEq] at h
    subst h
    refine ⟨?_, fun _ => ⟨?_, rfl⟩⟩
    · unfold Pack.flush
      rw [if_pos hz]
    · unfold Pack.flush
      rw [if_pos hz]
  · rw [if_neg hz] at h
    obtain ⟨_, hc, _⟩ := write_ok_parts _ _ h
    refine ⟨?_, fun h0 => absurd h0 hz⟩
    unfold Pack.flush
    rw [if_pos hc]

theorem flush_empty_noop_and_idempotent_witness :
    (Pack.new ⟨[], none⟩).flush = .ok (Pack.new ⟨[], none⟩) ∧
      ((Pack.new ⟨[], none⟩).ctr = 0 →
        (Pack.new ⟨[], none⟩).flush = .ok (Pack.new ⟨[], none⟩) ∧
          Pack.new ⟨[], none⟩ = Pack.new ⟨[], none⟩) :=
  flush_empty_noop_and_idempotent (Pack.new ⟨[], none⟩) (Pack.new ⟨[], none⟩) rfl

/-! ### Claim C9 -/

/-- C9: a zero-area grid (zero height, or zero width so that every row is
empty) produces zero output bytes and succeeds, in both modes. -/
theorem zero_area_grid_writes_nothing (rows : List (List Nat)) (s : Settings)
    (h : ∀ r ∈ rows, r = []) :
    process_image rows ⟨[], none⟩ s = .ok [] := by
  have hbits : ∀ r ∈ rows, rowBits s r = [] := by
    intro r hr
    rw [h r hr]
    rfl
  cases hm : s.no_flush_after_pixel_row with
  | false =>
    rw [process_image_aligned s hm rows]
    have : alignedBytes s rows = [] := by
      unfold alignedBytes
      rw [List.flatten_eq_nil_iff]
      intro l hl
      obtain ⟨r, hr, rfl⟩ := List.mem_map.mp hl
      rw [hbits r hr]
      exact packBytes_nil
    rw [this]
  | true =>
    rw [process_image_continuous s hm rows]
    have : contBits s rows = [] := by
      unfold contBits
      rw [List.flatten_eq_nil_iff]
      intro l hl
      obtain ⟨r, hr, rfl⟩ := List.mem_map.mp hl
      exact hbits r hr
    rw [this, packBytes_nil]

theorem zero_area_grid_writes_nothing_witness :
    (∀ r ∈ ([[], [], []] : List (List Nat)), r = []) ∧
      process_image [[], [], []] ⟨[], none⟩ ⟨100, false⟩ = .ok [] :=
  ⟨by decide, zero_area_grid_writes_nothing [[], [], []] ⟨100, false⟩ (by decide)⟩

/-! ### Claim C10 -/

theorem replicate_zero_getD (n j : Nat) : (List.replicate n (0 : Nat)).getD j 0 = 0 := by
  induction n generalizing j with
  | zero => cases j <;> rfl
  | succ m ih =>
    cases j with
    | zero => rfl
    | succ i =>
      rw [List.replicate_succ]
      exact ih i

/-- C10: in every reachable `Pack` state (bits restricted to 0/1), every
accumulator slot at index ≥ `ctr` holds 0; consequently `to_byte`, which
always folds all 8 slots, produces a byte whose low `8 - ctr` bits are
zero — exactly the zero padding a partial flush emits. -/
theorem slots_above_ctr_are_zero (p : Pack) (h : Reached (fun b => b ≤ 1) p) :
    (∀ i, p.ctr ≤ i → p.bits.getD i 0 = 0) ∧
      p.to_byte % 2 ^ (8 - p.ctr) = 0 := by
  obtain ⟨held, hctr, hlt, hbits, hP⟩ := reached_held h
  constructor
  · intro i hi
    rw [hbits, List.getD_append_right held _ 0 i (by omega)]
    exact replicate_zero_getD _ _
  · show toByteL p.bits % _ = 0
    rw [hbits, toByteL_eq_byteVal _ (by simp; omega)
      (by
        intro x hx
        rcases List.mem_append.mp hx with hx | hx
        · exact hP x hx
        · rw [List.eq_of_mem_replicate hx]; omega)]
    rw [byteVal_append_replicate, hctr]
    exact Nat.mul_mod_left _ _

theorem slots_above_ctr_are_zero_witness :
    (∀ i, (Pack.new ⟨[], none⟩).ctr ≤ i → (Pack.new ⟨[], none⟩).bits.getD i 0 = 0) ∧
      (Pack.new ⟨[], none⟩).to_byte % 2 ^ (8 - (Pack.new ⟨[], none⟩).ctr) = 0 :=
  slots_above_ctr_are_zero (Pack.new ⟨[], none⟩) (Reached.new ⟨[], none⟩)

/-! ### Claim C7: write failures -/

theorem emit_congr (f g : Pack → Except (List Nat) Pack)
    (h : ∀ p, f p = g p) (bits : List Nat) (ctr : Nat) (E bits' : List Nat) (ctr' : Nat)
    (hf : EmitSpec f bits ctr E bits' ctr') : EmitSpec g bits ctr E bits' ctr' := by
  constructor
  · intro out
    rw [← h ⟨⟨out, none⟩, bits, ctr⟩]
    exact hf.1 out
  · intro out k
    rw [← h ⟨⟨out, some k⟩, bits, ctr⟩]
    exact hf.2 out k

theorem emit_pure (bits : List Nat) (ctr : Nat) :
    EmitSpec (fun p => .ok p) bits ctr [] bits ctr := by
  constructor
  · intro out
    simp
  · intro out k
    simp

theorem emit_write (bits : List Nat) (ctr : Nat) :
    EmitSpec Pack.write bits ctr [toByteL bits] (List.replicate 8 0) 0 := by
  constructor
  · intro out
    rfl
  · intro out k
    cases k with
    | zero =>
      rw [if_neg (by simp)]
      show Pack.write ⟨⟨out, some 0⟩, bits, ctr⟩ = _
      simp [Pack.write, Sink.write_all]
    | succ m =>
      rw [if_pos (by simp)]
      show Pack.write ⟨⟨out, some (m + 1)⟩, bits, ctr⟩ = _
      show Except.ok (Pack.clear ⟨⟨out ++ [Pack.to_byte ⟨⟨out, some (m + 1)⟩, bits, ctr⟩],
        some m⟩, bits, ctr⟩) = _
      simp [Pack.clear, Pack.to_byte]

theorem emit_add_small (bits : List Nat) (ctr b : Nat) (hlen : bits.length = 8)
    (h : ctr + 1 < 8) :
    EmitSpec (fun p => p.add b) bits ctr [] (bits.set ctr b) (ctr + 1) := by
  constructor
  · intro out
    show (if ctr + 1 ≥ (bits.set ctr b).length
      then Pack.write ⟨⟨out, none⟩, bits.set ctr b, ctr + 1⟩
      else Except.ok ⟨⟨out, none⟩, bits.set ctr b, ctr + 1⟩) = _
    rw [if_neg (by rw [List.length_set, hlen]; omega)]
    simp
  · intro out k
    show (if ctr + 1 ≥ (bits.set ctr b).length
      then Pack.write ⟨⟨out, some k⟩, bits.set ctr b, ctr + 1⟩
      else Except.ok ⟨⟨out, some k⟩, bits.set ctr b, ctr + 1⟩) = _
    rw [if_neg (by rw [List.length_set, hlen]; omega), if_pos (by simp)]
    simp

theorem emit_add_full (bits : List Nat) (ctr b : Nat) (hlen : bits.length = 8)
    (h : ctr + 1 ≥ 8) :
    EmitSpec (fun p => p.add b) bits ctr [toByteL (bits.set ctr b)]
      (List.replicate 8 0) 0 := by
  have hw := emit_write (bits.set ctr b) (ctr + 1)
  constructor
  · intro out
    show (if ctr + 1 ≥ (bits.set ctr b).length
      then Pack.write ⟨⟨out, none⟩, bits.set ctr b, ctr + 1⟩
      else Except.ok ⟨⟨out, none⟩, bits.set ctr b, ctr + 1⟩) = _
    rw [if_pos (by rw [List.length_set, hlen]; omega)]
    exact hw.1 out
  · intro out k
    show (if ctr + 1 ≥ (bits.set ctr b).length
      then Pack.write ⟨⟨out, some k⟩, bits.set ctr b, ctr + 1⟩
      else Except.ok ⟨⟨out, some k⟩, bits.set ctr b, ctr + 1⟩) = _
    rw [if_pos (by rw [List.length_set, hlen]; omega)]
    exact hw.2 out k

theorem emit_flush_zero (bits : List Nat) :
    EmitSpec Pack.flush bits 0 [] bits 0 := by
  constructor
  · intro out
    show (if (0 : Nat) = 0 then Except.ok ⟨⟨out, none⟩, bits, 0⟩
      else Pack.write ⟨⟨out, none⟩, bits, 0⟩) = _
    rw [if_pos rfl]
    simp
  · intro out k
    show (if (0 : Nat) = 0 then Except.ok ⟨⟨out, some k⟩, bits, 0⟩
      else Pack.write ⟨⟨out, some k⟩, bits, 0⟩) = _
    rw [if_pos rfl, if_pos (by simp)]
    simp

theorem emit_flush_pos (bits : List Nat) (ctr : Nat) (h : ctr ≠ 0) :
    EmitSpec Pack.flush bits ctr [toByteL bits] (List.replicate 8 0) 0 := by
  have hw := emit_write bits ctr
  constructor
  · intro out
    show (if ctr = 0 then Except.ok ⟨⟨out, none⟩, bits, ctr⟩
      else Pack.write ⟨⟨out, none⟩, bits, ctr⟩) = _
    rw [if_neg h]
    exact hw.1 out
  · intro out k
    show (if ctr = 0 then Except.ok ⟨⟨out, some k⟩, bits, ctr⟩
      else Pack.write ⟨⟨out, some k⟩, bits, ctr⟩) = _
    rw [if_neg h]
    exact hw.2 out k

theorem emit_bind {f g : Pack → Except (List Nat) Pack}
    {bits : List Nat} {ctr : Nat} {E bits1 : List Nat} {ctr1 : Nat}
    {E' bits2 : List Nat} {ctr2 : Nat}
    (hf : EmitSpec f bits ctr E bits1 ctr1)
    (hg : EmitSpec g bits1 ctr1 E' bits2 ctr2) :
    EmitSpec (fun p => match f p with
      | Except.error e => Except.error e
      | Except.ok q => g q) bits ctr (E ++ E') bits2 ctr2 := by
  constructor
  · intro out
    show (match f ⟨⟨out, none⟩, bits, ctr⟩ with
      | Except.error e => Except.error e
      | Except.ok q => g q) = _
    rw [hf.1 out]
    show g ⟨⟨out ++ E, none⟩, bits1, ctr1⟩ = _
    rw [hg.1 (out ++ E), List.append_assoc]
  · intro out k
    show (match f ⟨⟨out, some k⟩, bits, ctr⟩ with
      | Except.error e => Except.error e
      | Except.ok q => g q) = _
    rw [hf.2 out k]
    by_cases h1 : E.length ≤ k
    · rw [if_pos h1]
      show g ⟨⟨out ++ E, some (k - E.length)⟩, bits1, ctr1⟩ = _
      rw [hg.2 (out ++ E) (k - E.length)]
      by_cases h2 : E'.length ≤ k - E.length
      · rw [if_pos h2, if_pos (by rw [List.length_append]; omega)]
        have hk : k - E.length - E'.length = k - (E ++ E').length := by
          rw [List.length_append]; omega
        rw [hk, List.append_assoc]
      · rw [if_neg h2, if_neg (by rw [List.length_append]; omega)]
        have ht : (E ++ E').take k = E ++ E'.take (k - E.length) := by
          rw [List.take_append_eq_append_take, List.take_of_length_le h1]
        rw [ht, List.append_assoc]
    · rw [if_neg h1, if_neg (by rw [List.length_append]; omega)]
      have ht : (E ++ E').take k = E.take k := by
        rw [List.take_append_eq_append_take]
        have h3 : k - E.length = 0 := by omega
        rw [h3]
        simp
      rw [ht]

theorem emit_processRow (s : Settings) (row : List Nat) :
    ∀ bits ctr, bits.length = 8 → ctr < 8 →
      ∃ E bits' ctr', EmitSpec (fun p => processRow s p row) bits ctr E bits' ctr' ∧
        bits'.length = 8 ∧ ctr' < 8 := by
  induction row with
  | nil =>
    intro bits ctr h8 hc
    exact ⟨[], bits, ctr, emit_pure bits ctr, h8, hc⟩
  | cons px rest ih =>
    intro bits ctr h8 hc
    by_cases hfull : ctr + 1 ≥ 8
    · have ha := emit_add_full bits ctr (thresholdBit px s.threshold) h8 hfull
      obtain ⟨E, bits', ctr', hr, h8', hc'⟩ :=
        ih (List.replicate 8 0) 0 (by simp) (by omega)
      exact ⟨[toByteL (bits.set ctr (thresholdBit px s.threshold))] ++ E, bits', ctr',
        emit_bind ha hr, h8', hc'⟩
    · have ha := emit_add_small bits ctr (thresholdBit px s.threshold) h8 (by omega)
      obtain ⟨E, bits', ctr', hr, h8', hc'⟩ :=
        ih (bits.set ctr (thresholdBit px s.threshold)) (ctr + 1)
          (by rw [List.length_set, h8]) (by omega)
      exact ⟨[] ++ E, bits', ctr', emit_bind ha hr, h8', hc'⟩

theorem emit_processRows (s : Settings) (rows : List (List Nat)) :
    ∀ bits ctr, bits.length = 8 → ctr < 8 →
      ∃ E bits' ctr', EmitSpec (fun p => processRows s p rows) bits ctr E bits' ctr' ∧
        bits'.length = 8 ∧ ctr' < 8 := by
  induction rows with
  | nil =>
    intro bits ctr h8 hc
    exact ⟨[], bits, ctr, emit_pure bits ctr, h8, hc⟩
  | cons row rest ih =>
    intro bits ctr h8 hc
    obtain ⟨E1, b1, c1, h1, h81, hc1⟩ := emit_processRow s row bits ctr h8 hc
    obtain ⟨E2, b2, c2, h2, h82, hc2⟩ :
        ∃ E2 b2 c2, EmitSpec (fun q : Pack =>
            if s.no_flush_after_pixel_row then Except.ok q else q.flush)
          b1 c1 E2 b2 c2 ∧ b2.length = 8 ∧ c2 < 8 := by
      cases hm : s.no_flush_after_pixel_row with
      | true =>
        refine ⟨[], b1, c1, ?_, h81, hc1⟩
        exact emit_congr (fun q : Pack => Except.ok q) _
          (fun p => by simp) b1 c1 [] b1 c1 (emit_pure b1 c1)
      | false =>
        by_cases hz : c1 = 0
        · subst hz
          refine ⟨[], b1, 0, ?_, h81, by omega⟩
          exact emit_congr Pack.flush _
            (fun p => by simp) b1 0 [] b1 0 (emit_flush_zero b1)
        · refine ⟨[toByteL b1], List.replicate 8 0, 0, ?_, by simp, by omega⟩
          exact emit_congr Pack.flush _
            (fun p => by simp) b1 c1 [toByteL b1] (List.replicate 8 0) 0
            (emit_flush_pos b1 c1 hz)
    obtain ⟨E3, b3, c3, h3, h83, hc3⟩ := ih b2 c2 h82 hc2
    exact ⟨E1 ++ (E2 ++ E3), b3, c3, emit_bind h1 (emit_bind h2 h3), h83, hc3⟩

theorem process_image_budget (rows : List (List Nat)) (s : Settings) :
    ∃ E : List Nat, process_image rows ⟨[], none⟩ s = .ok E ∧
      ∀ k, process_image rows ⟨[], some k⟩ s =
        if E.length ≤ k then .ok E else .error (E.take k) := by
  obtain ⟨E1, b1, c1, h1, h81, hc1⟩ :=
    emit_processRows s rows (List.replicate 8 0) 0 (by simp) (by omega)
  obtain ⟨E2, b2, c2, h2⟩ : ∃ E2 b2 c2, EmitSpec Pack.flush b1 c1 E2 b2 c2 := by
    by_cases hz : c1 = 0
    · subst hz
      exact ⟨[], b1, 0, emit_flush_zero b1⟩
    · exact ⟨[toByteL b1], List.replicate 8 0, 0, emit_flush_pos b1 c1 hz⟩
  have hcomp := emit_bind h1 h2
  have hpi : ∀ sink : Sink, process_image rows sink s =
      match (match processRows s (Pack.new sink) rows with
        | Except.error e => Except.error e
        | Except.ok q => q.flush) with
      | Except.error e => Except.error e
      | Except.ok p => Except.ok p.writer.written := by
    intro sink
    show (match processRows s (Pack.new sink) rows with
      | Except.error e => Except.error e
      | Except.ok pack =>
        match pack.flush with
        | Except.error e => Except.error e
        | Except.ok pack => Except.ok pack.writer.written) = _
    cases processRows s (Pack.new sink) rows with
    | error e => rfl
    | ok q =>
      cases q.flush with
      | error e => rfl
      | ok r => rfl
  refine ⟨E1 ++ E2, ?_, ?_⟩
  · have hc1 : (match processRows s ⟨⟨[], none⟩, List.replicate 8 0, 0⟩ rows with
        | Except.error e => Except.error e
        | Except.ok q => q.flush) =
        .ok ⟨⟨[] ++ (E1 ++ E2), none⟩, b2, c2⟩ := hcomp.1 []
    rw [hpi ⟨[], none⟩]
    have hnew : Pack.new ⟨[], none⟩ = (⟨⟨[], none⟩, List.replicate 8 0, 0⟩ : Pack) := rfl
    rw [hnew, hc1]
    simp
  · intro k
    have hck : (match processRows s ⟨⟨[], some k⟩, List.replicate 8 0, 0⟩ rows with
        | Except.error e => Except.error e
        | Except.ok q => q.flush) =
        if (E1 ++ E2).length ≤ k
          then .ok ⟨⟨[] ++ (E1 ++ E2), some (k - (E1 ++ E2).length)⟩, b2, c2⟩
          else .error ([] ++ (E1 ++ E2).take k) := hcomp.2 [] k
    rw [hpi ⟨[], some k⟩]
    have hnew : Pack.new ⟨[], some k⟩ = (⟨⟨[], some k⟩, List.replicate 8 0, 0⟩ : Pack) := rfl
    rw [hnew, hck]
    by_cases hk : (E1 ++ E2).length ≤ k
    · rw [if_pos hk, if_pos hk]
      simp
    · rw [if_neg hk, if_neg hk]
      simp

/-- C7: when the sink accepts only `k` writes and the run needs more, the
failure is propagated as an error (the remaining iteration is abandoned), the
bytes already written stay on the sink — they are exactly the first `k` bytes
of the output a never-failing run would produce — and no byte is written after
the failing write. -/
theorem write_failure_aborts_with_prefix (rows : List (List Nat)) (s : Settings)
    (out : List Nat) (k : Nat)
    (hok : process_image rows ⟨[], none⟩ s = .ok out) (hk : k < out.length) :
    process_image rows ⟨[], some k⟩ s = .error (out.take k) ∧
      (out.take k).length = k := by
  obtain ⟨E, hE, hbud⟩ := process_image_budget rows s
  rw [hok] at hE
  injection hE with hE
  subst hE
  refine ⟨?_, ?_⟩
  · rw [hbud k, if_neg (by omega)]
  · rw [List.length_take]
    omega

theorem write_failure_aborts_with_prefix_witness :
    process_image [[200, 200, 200, 200, 200, 200, 200, 200],
        [200, 200, 200, 200, 200, 200, 200, 200]] ⟨[], some 1⟩ ⟨100, false⟩ =
      .error (([255, 255] : List Nat).take 1) ∧
    (([255, 255] : List Nat).take 1).length = 1 :=
  write_failure_aborts_with_prefix
    [[200, 200, 200, 200, 200, 200, 200, 200],
      [200, 200, 200, 200, 200, 200, 200, 200]]
    ⟨100, false⟩ [255, 255] 1 rfl (by decide)
